import Mathlib

/-!
Verification development for the `fm` file manager's core logic:
path algebra (relative path diffs), the pane-stack synchronizer,
the preview resolver (value level and message-passing level),
the trash batch operation, drop-to-move handling, selection
construction, and PDF page navigation.

Filesystem locations are modelled as absolute paths given by their
list of plain components (`Path`). Filesystem facts that the code
queries at runtime (is a path a directory, a file's metadata, a
file's bytes) are supplied as explicit environment parameters.
-/

namespace Fm

/-- An absolute filesystem location, as its list of path components
(the empty list is the filesystem root `/`). -/
abbrev Path := List String

/-- One component of a relative path difference: `parentDir` is `..`
(ascend), `normal name` descends into the named child. Mirrors the
`std::path::Component` cases that `pathdiff::diff_paths` can produce
for clean absolute inputs. -/
inductive PathComp where
  | parentDir : PathComp
  | normal (name : String) : PathComp
deriving DecidableEq, Repr

/-- Models `pathdiff::diff_paths(path, base)` (the crate used by
`AppModel::update_with_view` and `FilePanes::handle_new_selection`),
specialized to absolute paths made of plain components: both inputs
start with `RootDir`, which always matches, and contain no `.`/`..`,
so only the equal-skip loop, the exhausted-base case, the
exhausted-path case and the first-mismatch case of the crate's loop
remain. -/
def diffPaths : Path → Path → List PathComp
  | [], [] => []
  | a :: as, [] => PathComp.normal a :: as.map PathComp.normal
  | [], _ :: bs => PathComp.parentDir :: diffPaths [] bs
  | a :: as, b :: bs =>
    if a = b then diffPaths as bs
    else
      PathComp.parentDir :: ((bs.map fun _ => PathComp.parentDir) ++
        (PathComp.normal a :: as.map PathComp.normal))

/-- Length of the longest common prefix of two component lists. -/
def commonPrefixLen : Path → Path → Nat
  | a :: as, b :: bs => if a = b then commonPrefixLen as bs + 1 else 0
  | _, _ => 0

theorem diffPaths_nil_left (b : Path) :
    diffPaths [] b = List.replicate b.length PathComp.parentDir := by
  induction b with
  | nil => simp [diffPaths]
  | cons x xs ih => simp [diffPaths, List.replicate_succ, ih]

/-- Normal form of a path diff: ascend to the nearest common ancestor,
then descend through the remaining components of the target. -/
theorem diffPaths_eq (t b : Path) :
    diffPaths t b =
      List.replicate (b.length - commonPrefixLen t b) PathComp.parentDir
        ++ (t.drop (commonPrefixLen t b)).map PathComp.normal := by
  induction t generalizing b with
  | nil =>
    cases b with
    | nil => simp [diffPaths, commonPrefixLen]
    | cons x xs => simp [diffPaths_nil_left, commonPrefixLen]
  | cons a as ih =>
    cases b with
    | nil => simp [diffPaths, commonPrefixLen]
    | cons x xs =>
      by_cases hax : a = x
      · subst hax
        simp only [diffPaths, if_pos rfl, commonPrefixLen]
        rw [ih]
        simp [Nat.succ_sub_succ]
      · simp only [diffPaths, if_neg hax, commonPrefixLen, if_neg hax]
        simp [List.replicate_succ, List.map_const', Nat.sub_zero]

theorem commonPrefixLen_append (p x y : Path) :
    commonPrefixLen (p ++ x) (p ++ y) = p.length + commonPrefixLen x y := by
  induction p with
  | nil => simp
  | cons a as ih => simp [commonPrefixLen, ih, Nat.succ_add]

theorem commonPrefixLen_nil_left (y : Path) : commonPrefixLen [] y = 0 := by
  cases y <;> rfl

theorem commonPrefixLen_le_left (x y : Path) : commonPrefixLen x y ≤ x.length := by
  induction x generalizing y with
  | nil => simp [commonPrefixLen_nil_left]
  | cons a as ih =>
    cases y with
    | nil => simp [commonPrefixLen]
    | cons b bs =>
      simp only [commonPrefixLen]
      by_cases hab : a = b
      · simpa [hab] using Nat.succ_le_succ (ih bs)
      · simp [hab]

theorem commonPrefixLen_le_right (x y : Path) : commonPrefixLen x y ≤ y.length := by
  induction x generalizing y with
  | nil => simp [commonPrefixLen_nil_left]
  | cons a as ih =>
    cases y with
    | nil => simp [commonPrefixLen]
    | cons b bs =>
      simp only [commonPrefixLen]
      by_cases hab : a = b
      · simpa [hab] using Nat.succ_le_succ (ih bs)
      · simp [hab]

/-! ## Pane stack synchronizer (`AppModel::update_with_view` in `src/lib.rs`) -/

/-- `directory_list::FileSelection`: the shared parent directory and the
selected files. -/
structure FileSelection where
  parent : Path
  files : List Path
deriving DecidableEq, Repr

/-- `directory_list::Selection`. -/
inductive Selection where
  | files (sel : FileSelection)
  | noSelection
deriving DecidableEq, Repr

/-- The `AppMsg` events that drive the pane stack (`NewSelection` and
`NewRoot`; the remaining variants do not touch the stack). -/
inductive AppMsg where
  | newSelection (sel : Selection)
  | newRoot (root : Path)
deriving DecidableEq, Repr

/-- The pane-stack-relevant fields of `AppModel`: the root directory and
the stack of listed directories (`FactoryVecDeque<Directory>`, leftmost
first). -/
structure AppModel where
  root : Path
  directories : List Path
deriving DecidableEq, Repr

/-- The state threaded through the `NewSelection` diff walk: the
directory stack being mutated and the local `last_dir` variable. -/
structure WalkState where
  directories : List Path
  lastDir : Path
deriving DecidableEq, Repr

/-- One step of the diff walk in `AppMsg::NewSelection` handling.
`ParentDir` pops the deepest pane (`directories.pop_back()`, a no-op on
an empty stack) and moves `last_dir` to its parent — the
`.parent().unwrap()` panics at the filesystem root, modelled as `none`.
`Normal` queries the child's file type and pushes a new pane only when
it is a directory, in which case `last_dir` advances. `isDir` stands
for the runtime `query_file_type(...) == FileType::Directory` check. -/
def applyComp (isDir : Path → Bool) (st : WalkState) : PathComp → Option WalkState
  | PathComp.parentDir =>
    match st.lastDir with
    | [] => Option.none
    | _ :: _ => Option.some ⟨st.directories.dropLast, st.lastDir.dropLast⟩
  | PathComp.normal name =>
    let componentFile := st.lastDir ++ [name]
    if isDir componentFile then
      Option.some ⟨st.directories ++ [componentFile], componentFile⟩
    else
      Option.some ⟨st.directories, st.lastDir⟩

/-- Process the diff's components strictly in order (the `for` loop of
the `NewSelection` arm). -/
def applyDiff (isDir : Path → Bool) : WalkState → List PathComp → Option WalkState
  | st, [] => Option.some st
  | st, c :: cs =>
    match applyComp isDir st c with
    | Option.none => Option.none
    | Option.some st' => applyDiff isDir st' cs

/-- The diff target: the single file if exactly one is selected,
otherwise the selection's shared parent. -/
def selectionTarget (sel : FileSelection) : Path :=
  if sel.files.length = 1 then sel.files.headI else sel.parent

/-- `AppModel::update_with_view` restricted to the events that mutate
the pane stack. `NewSelection(Files)` reads `last_dir()` (an `expect`
panic on an empty stack, modelled as `none`), computes
`pathdiff::diff_paths(target, last_dir)` and walks it;
`NewSelection(None)` leaves the stack untouched; `NewRoot` clears the
stack and pushes exactly one pane for the new root. -/
def update (isDir : Path → Bool) (m : AppModel) : AppMsg → Option AppModel
  | AppMsg.newSelection (Selection.files sel) =>
    match m.directories.getLast? with
    | Option.none => Option.none
    | Option.some last =>
      match applyDiff isDir ⟨m.directories, last⟩ (diffPaths (selectionTarget sel) last) with
      | Option.none => Option.none
      | Option.some st => Option.some { m with directories := st.directories }
  | AppMsg.newSelection Selection.noSelection => Option.some m
  | AppMsg.newRoot r => Option.some { root := r, directories := [r] }

/-- Run a sequence of events, propagating the first panic. -/
def runMsgs (isDir : Path → Bool) : AppModel → List AppMsg → Option AppModel
  | m, [] => Option.some m
  | m, msg :: rest =>
    match update isDir m msg with
    | Option.none => Option.none
    | Option.some m' => runMsgs isDir m' rest

/-- An event is valid when it is one the presentation layer can
actually report against the model: a `Files` selection names a parent
that is one of the open panes and files that are direct children of
that parent, and a new root is a directory. -/
def validMsg (isDir : Path → Bool) (m : AppModel) : AppMsg → Bool
  | AppMsg.newSelection (Selection.files sel) =>
    decide (sel.parent ∈ m.directories) && decide (sel.files ≠ []) &&
      sel.files.all fun f => decide (f ≠ []) && decide (f.dropLast = sel.parent)
  | AppMsg.newSelection Selection.noSelection => true
  | AppMsg.newRoot r => isDir r

/-- Validity of a whole event sequence, each event checked against the
state the previous ones produced. -/
def validMsgs (isDir : Path → Bool) : AppModel → List AppMsg → Bool
  | _, [] => true
  | m, msg :: rest =>
    validMsg isDir m msg && validMsgs isDir ((update isDir m msg).getD m) rest

/-- The shape every reachable pane stack has: the panes are exactly the
prefixes of the deepest directory from the root down, i.e. each pane's
directory is a direct child of the previous pane's. -/
def stackOf (root : Path) (names : List String) : List Path :=
  names.scanl (fun p n => p ++ [n]) root

theorem stackOf_nil (root : Path) : stackOf root [] = [root] := rfl

theorem stackOf_cons (root : Path) (n : String) (ns : List String) :
    stackOf root (n :: ns) = root :: stackOf (root ++ [n]) ns := rfl

theorem stackOf_ne_nil (root : Path) (names : List String) :
    stackOf root names ≠ [] := by
  cases names <;> simp [stackOf_nil, stackOf_cons]

theorem stackOf_getLast? (root : Path) (names : List String) :
    (stackOf root names).getLast? = Option.some (root ++ names) := by
  induction names generalizing root with
  | nil => simp [stackOf_nil]
  | cons n ns ih =>
    rw [stackOf_cons]
    rcases List.exists_cons_of_ne_nil (stackOf_ne_nil (root ++ [n]) ns) with ⟨x, xs, hx⟩
    rw [hx, List.getLast?_cons_cons, ← hx, ih]
    simp

theorem stackOf_append_singleton (root : Path) (names : List String) (m : String) :
    stackOf root (names ++ [m]) = stackOf root names ++ [root ++ names ++ [m]] := by
  induction names generalizing root with
  | nil => simp [stackOf_nil, stackOf_cons]
  | cons n ns ih =>
    rw [List.cons_append, stackOf_cons, ih, stackOf_cons]
    simp

theorem stackOf_dropLast (root : Path) (names : List String) (h : names ≠ []) :
    (stackOf root names).dropLast = stackOf root names.dropLast := by
  conv_lhs => rw [← List.dropLast_append_getLast h, stackOf_append_singleton]
  rw [List.dropLast_concat]

theorem mem_stackOf (root : Path) (names : List String) (p : Path) :
    p ∈ stackOf root names ↔ ∃ j, j ≤ names.length ∧ p = root ++ names.take j := by
  induction names generalizing root with
  | nil =>
    simp only [stackOf_nil, List.mem_singleton]
    constructor
    · rintro rfl; exact ⟨0, by simp⟩
    · rintro ⟨j, _, rfl⟩; simp
  | cons n ns ih =>
    rw [stackOf_cons]
    simp only [List.mem_cons, ih]
    constructor
    · rintro (rfl | ⟨j, hj, rfl⟩)
      · exact ⟨0, by simp⟩
      · exact ⟨j + 1, by simpa using hj, by simp⟩
    · rintro ⟨j, hj, rfl⟩
      cases j with
      | zero => left; simp
      | succ j => right; exact ⟨j, by simpa using hj, by simp⟩

theorem applyDiff_append (isDir : Path → Bool) (st : WalkState) (xs ys : List PathComp) :
    applyDiff isDir st (xs ++ ys) =
      match applyDiff isDir st xs with
      | Option.none => Option.none
      | Option.some st' => applyDiff isDir st' ys := by
  induction xs generalizing st with
  | nil => simp [applyDiff]
  | cons c cs ih =>
    simp only [List.cons_append, applyDiff]
    cases applyComp isDir st c with
    | none => rfl
    | some st' => exact ih st'

/-- The ascend phase of the diff walk: popping `k ≤ names.length` times
from a well-formed stack succeeds and truncates both the stack and
`last_dir` to the common ancestor. -/
theorem applyDiff_replicate_parentDir (isDir : Path → Bool) (root : Path) (k : Nat) :
    ∀ names : List String, k ≤ names.length →
      applyDiff isDir ⟨stackOf root names, root ++ names⟩ (List.replicate k PathComp.parentDir) =
        Option.some ⟨stackOf root (names.take (names.length - k)),
          root ++ names.take (names.length - k)⟩ := by
  induction k with
  | zero =>
    intro names _
    simp [applyDiff, List.take_length]
  | succ k ih =>
    intro names hk
    have hne : names ≠ [] := by
      intro h
      subst h
      simp at hk
    have hlast : root ++ names ≠ [] := by simp [hne]
    rcases List.exists_cons_of_ne_nil hlast with ⟨y, ys, hy⟩
    rw [List.replicate_succ]
    simp only [applyDiff, applyComp, hy]
    rw [← hy]
    have hdl : (root ++ names).dropLast = root ++ names.dropLast :=
      List.dropLast_append_of_ne_nil root hne
    have hsl : (stackOf root names).dropLast = stackOf root names.dropLast :=
      stackOf_dropLast root names hne
    simp only [hdl, hsl]
    have hk' : k ≤ names.dropLast.length := by
      simp only [List.length_dropLast]
      omega
    rw [ih names.dropLast hk']
    have harith : names.dropLast.length - k = names.length - (k + 1) := by
      simp only [List.length_dropLast]
      omega
    have htake : names.dropLast.take (names.length - (k + 1)) =
        names.take (names.length - (k + 1)) := by
      rw [List.dropLast_eq_take, List.take_take]
      congr 1
      omega
    rw [harith, htake]

/-- Helper facts about the common-prefix length of a single further
component against the remaining suffix. -/
theorem commonPrefixLen_single (nm : String) (y : List String) :
    commonPrefixLen [nm] y = 0 ∨
      (commonPrefixLen [nm] y = 1 ∧ y.take 1 = [nm]) := by
  cases y with
  | nil => left; rfl
  | cons b bs =>
    by_cases h : nm = b
    · right
      subst h
      constructor
      · simp [commonPrefixLen, commonPrefixLen_nil_left]
      · simp
    · left
      simp [commonPrefixLen, h]

/-- A truncation of an all-directories stack is again all directories. -/
theorem stackOf_take_isDir (isDir : Path → Bool) (root : Path) (names : List String)
    (hstack : ∀ d ∈ stackOf root names, isDir d = true) (j : Nat) :
    ∀ d ∈ stackOf root (names.take j), isDir d = true := by
  intro d hd
  rcases (mem_stackOf root (names.take j) d).mp hd with ⟨i, hi, rfl⟩
  simp only [List.length_take] at hi
  refine hstack _ ((mem_stackOf root names _).mpr ⟨i, ?_, ?_⟩)
  · exact le_trans hi (Nat.min_le_right _ _)
  · rw [List.take_take, Nat.min_eq_left (le_trans hi (Nat.min_le_left _ _))]

/-- Master lemma for a valid `NewSelection(Files)` event on a
well-formed stack: the update succeeds, the resulting stack is again
well-formed and consists of directories, and its deepest pane is the
diff target when the target is a directory and the target's parent
otherwise. -/
theorem newSelection_update (isDir : Path → Bool) (root : Path) (names : List String)
    (sel : FileSelection) (j : Nat)
    (hstack : ∀ d ∈ stackOf root names, isDir d = true)
    (hj : j ≤ names.length) (hparent : sel.parent = root ++ names.take j)
    (_hfiles : sel.files ≠ [])
    (hch : ∀ f ∈ sel.files, f ≠ [] ∧ f.dropLast = sel.parent) :
    ∃ names', update isDir ⟨root, stackOf root names⟩
        (AppMsg.newSelection (Selection.files sel)) =
        Option.some ⟨root, stackOf root names'⟩ ∧
      root ++ names' = (if isDir (selectionTarget sel) = true then selectionTarget sel
                        else (selectionTarget sel).dropLast) ∧
      (∀ d ∈ stackOf root names', isDir d = true) := by
  -- The target is either the parent itself or parent ++ [nm].
  have htarget : selectionTarget sel = sel.parent ∨
      ∃ nm, selectionTarget sel = sel.parent ++ [nm] := by
    unfold selectionTarget
    by_cases hlen : sel.files.length = 1
    · rcases List.length_eq_one.mp hlen with ⟨f, hf⟩
      rcases hch f (by simp [hf]) with ⟨hfne, hfdl⟩
      right
      refine ⟨f.getLast hfne, ?_⟩
      rw [if_pos hlen, hf]
      simp only [List.headI]
      rw [← hfdl, List.dropLast_append_getLast hfne]
    · left
      rw [if_neg hlen]
  -- Split the deepest directory around the parent.
  have hsplit : root ++ names = sel.parent ++ names.drop j := by
    rw [hparent, List.append_assoc, List.take_append_drop]
  have hplen : sel.parent.length = root.length + j := by
    rw [hparent]
    simp [List.length_take, Nat.min_eq_left hj]
  rcases htarget with hT | ⟨nm, hT⟩
  · -- Multi-file selection (or parent target): pure ascend to the parent.
    have hcpl : commonPrefixLen (selectionTarget sel) (root ++ names) =
        sel.parent.length := by
      rw [hT, hsplit]
      have h0 := commonPrefixLen_append sel.parent [] (names.drop j)
      simpa [commonPrefixLen_nil_left] using h0
    refine ⟨names.take j, ?_, ?_, ?_⟩
    · simp only [update, stackOf_getLast?]
      rw [diffPaths_eq, hcpl, hT]
      have hdrop : sel.parent.drop sel.parent.length = [] := by simp
      rw [hdrop]
      simp only [List.map_nil]
      rw [List.append_nil]
      have hk : (root ++ names).length - sel.parent.length = names.length - j := by
        simp only [List.length_append, hplen]
        omega
      rw [hk]
      rw [applyDiff_replicate_parentDir isDir root (names.length - j) names (Nat.sub_le _ _)]
      have hjj : names.length - (names.length - j) = j := by omega
      rw [hjj]
    · have hmem : root ++ names.take j ∈ stackOf root names :=
        (mem_stackOf root names _).mpr ⟨j, hj, rfl⟩
      rw [hT, hparent, if_pos (hstack _ hmem)]
    · exact stackOf_take_isDir isDir root names hstack j
  · -- Single-file selection: the target is parent ++ [nm].
    have hcpl : commonPrefixLen (selectionTarget sel) (root ++ names) =
        sel.parent.length + commonPrefixLen [nm] (names.drop j) := by
      rw [hT, hsplit, commonPrefixLen_append]
    have hcf : root ++ names.take j ++ [nm] = selectionTarget sel := by
      rw [hT, hparent]
    rcases commonPrefixLen_single nm (names.drop j) with hc1 | ⟨hc1, hc1take⟩
    · -- The target is not already on the chain: pure ascend to the
      -- parent, then a single descend step on `nm`.
      have hcpl0 : commonPrefixLen (selectionTarget sel) (root ++ names) =
          sel.parent.length := by
        rw [hcpl, hc1, Nat.add_zero]
      have hk : (root ++ names).length - sel.parent.length = names.length - j := by
        simp only [List.length_append, hplen]
        omega
      have hdropt : (selectionTarget sel).drop sel.parent.length = [nm] := by
        rw [hT]
        simp
      by_cases hdir : isDir (selectionTarget sel) = true
      · refine ⟨names.take j ++ [nm], ?_, ?_, ?_⟩
        · simp only [update, stackOf_getLast?]
          rw [diffPaths_eq, hcpl0, hdropt, hk]
          rw [applyDiff_append]
          rw [applyDiff_replicate_parentDir isDir root (names.length - j) names
            (Nat.sub_le _ _)]
          have hjj : names.length - (names.length - j) = j := by omega
          rw [hjj]
          simp only [List.map_cons, List.map_nil, applyDiff, applyComp]
          rw [hcf, if_pos hdir]
          simp only [applyDiff]
          rw [stackOf_append_singleton, hcf]
        · rw [if_pos hdir, hT, hparent]
          simp
        · intro d hd
          rw [stackOf_append_singleton] at hd
          rcases List.mem_append.mp hd with hd | hd
          · exact stackOf_take_isDir isDir root names hstack j d hd
          · rw [List.mem_singleton.mp hd, hcf]
            exact hdir
      · refine ⟨names.take j, ?_, ?_, ?_⟩
        · simp only [update, stackOf_getLast?]
          rw [diffPaths_eq, hcpl0, hdropt, hk]
          rw [applyDiff_append]
          rw [applyDiff_replicate_parentDir isDir root (names.length - j) names
            (Nat.sub_le _ _)]
          have hjj : names.length - (names.length - j) = j := by omega
          rw [hjj]
          simp only [List.map_cons, List.map_nil, applyDiff, applyComp]
          rw [hcf, if_neg hdir]
        · rw [if_neg hdir, hT, List.dropLast_concat, hparent]
        · exact stackOf_take_isDir isDir root names hstack j
    · -- The target is itself one of the open panes: pure ascend to it.
      have hjlt : j + 1 ≤ names.length := by
        by_contra hcon
        have hdropnil : names.drop j = [] := List.drop_eq_nil_of_le (by omega)
        rw [hdropnil] at hc1take
        simp at hc1take
      have htake1 : names.take (j + 1) = names.take j ++ [nm] := by
        rw [List.take_add, hc1take]
      have htchain : selectionTarget sel = root ++ names.take (j + 1) := by
        rw [hT, hparent, htake1]
        simp
      have hcpl1 : commonPrefixLen (selectionTarget sel) (root ++ names) =
          sel.parent.length + 1 := by
        rw [hcpl, hc1]
      have hk : (root ++ names).length - (sel.parent.length + 1) =
          names.length - (j + 1) := by
        simp only [List.length_append, hplen]
        omega
      have hdropt : (selectionTarget sel).drop (sel.parent.length + 1) = [] := by
        rw [hT]
        apply List.drop_eq_nil_of_le
        simp
      refine ⟨names.take (j + 1), ?_, ?_, ?_⟩
      · simp only [update, stackOf_getLast?]
        rw [diffPaths_eq, hcpl1, hdropt, hk]
        simp only [List.map_nil]
        rw [List.append_nil]
        rw [applyDiff_replicate_parentDir isDir root (names.length - (j + 1)) names
          (Nat.sub_le _ _)]
        have hjj : names.length - (names.length - (j + 1)) = j + 1 := by omega
        rw [hjj]
      · have hmem : root ++ names.take (j + 1) ∈ stackOf root names :=
          (mem_stackOf root names _).mpr ⟨j + 1, hjlt, rfl⟩
        rw [htchain, if_pos (hstack _ hmem)]
      · exact stackOf_take_isDir isDir root names hstack (j + 1)
/-- The reachable-state invariant of the pane stack: the panes are the
chain of prefixes of the deepest directory, and every pane lists a
directory. -/
def StackWF (isDir : Path → Bool) (m : AppModel) : Prop :=
  (∃ names, m.directories = stackOf m.root names) ∧ ∀ d ∈ m.directories, isDir d = true

theorem update_preserves (isDir : Path → Bool) (m : AppModel) (msg : AppMsg)
    (hwf : StackWF isDir m) (hv : validMsg isDir m msg = true) :
    ∃ m', update isDir m msg = Option.some m' ∧ StackWF isDir m' := by
  obtain ⟨root, dirs⟩ := m
  rcases hwf with ⟨⟨names, hnames⟩, hdirs⟩
  simp only at hnames
  subst hnames
  cases msg with
  | newRoot r =>
    refine ⟨⟨r, [r]⟩, rfl, ⟨[], rfl⟩, ?_⟩
    intro d hd
    rw [List.mem_singleton.mp hd]
    simpa [validMsg] using hv
  | newSelection s =>
    cases s with
    | noSelection => exact ⟨_, rfl, ⟨names, rfl⟩, hdirs⟩
    | files sel =>
      simp only [validMsg, Bool.and_eq_true, decide_eq_true_eq, List.all_eq_true] at hv
      obtain ⟨⟨hmem, hne⟩, hall⟩ := hv
      obtain ⟨j, hj, hparent⟩ := (mem_stackOf root names sel.parent).mp hmem
      obtain ⟨names', hup, _, hdirs'⟩ :=
        newSelection_update isDir root names sel j hdirs hj hparent hne
          (fun f hf => by
            have h := hall f hf
            simp only [Bool.and_eq_true, decide_eq_true_eq] at h
            exact h)
      exact ⟨_, hup, ⟨names', rfl⟩, hdirs'⟩

theorem runMsgs_preserves (isDir : Path → Bool) (msgs : List AppMsg) :
    ∀ m : AppModel, StackWF isDir m → validMsgs isDir m msgs = true →
      ∃ m', runMsgs isDir m msgs = Option.some m' ∧ StackWF isDir m' := by
  induction msgs with
  | nil => exact fun m hwf _ => ⟨m, rfl, hwf⟩
  | cons msg rest ih =>
    intro m hwf hv
    simp only [validMsgs, Bool.and_eq_true] at hv
    obtain ⟨hv1, hv2⟩ := hv
    obtain ⟨m', hup, hwf'⟩ := update_preserves isDir m msg hwf hv1
    rw [hup] at hv2
    simp only [Option.getD_some] at hv2
    simp only [runMsgs, hup]
    exact ih m' hwf' hv2

/-- C1: starting from a valid single-pane stack, after any finite valid
sequence of `NewSelection`/`NewRoot` events the processing never panics
and the pane stack is non-empty; moreover `NewRoot` always leaves
exactly one pane. -/
theorem c1_pane_stack_never_empty (isDir : Path → Bool) (root : Path)
    (msgs : List AppMsg) (hroot : isDir root = true)
    (hvalid : validMsgs isDir ⟨root, [root]⟩ msgs = true) :
    (∃ m', runMsgs isDir ⟨root, [root]⟩ msgs = Option.some m' ∧
      m'.directories ≠ []) ∧
    ∀ (m : AppModel) (r : Path),
      update isDir m (AppMsg.newRoot r) = Option.some ⟨r, [r]⟩ := by
  constructor
  · have hwf : StackWF isDir ⟨root, [root]⟩ := by
      refine ⟨⟨[], rfl⟩, ?_⟩
      intro d hd
      rw [List.mem_singleton.mp hd]
      exact hroot
    obtain ⟨m', hrun, ⟨names, hn⟩, _⟩ := runMsgs_preserves isDir msgs _ hwf hvalid
    refine ⟨m', hrun, ?_⟩
    rw [hn]
    exact stackOf_ne_nil _ _
  · intro m r
    rfl

/-- Witness for C1 at a concrete run: root `/a`, descend into `/a/b`,
then jump to the non-directory `/a/c`, then reset the root. -/
theorem c1_pane_stack_never_empty_witness :
    (fun p : Path => decide (p = ["a"] ∨ p = ["a", "b"])) ["a"] = true ∧
    validMsgs (fun p : Path => decide (p = ["a"] ∨ p = ["a", "b"]))
      ⟨["a"], [["a"]]⟩
      [AppMsg.newSelection (Selection.files ⟨["a"], [["a", "b"]]⟩),
       AppMsg.newSelection (Selection.files ⟨["a"], [["a", "c"]]⟩),
       AppMsg.newRoot ["a"]] = true ∧
    (∃ m', runMsgs (fun p : Path => decide (p = ["a"] ∨ p = ["a", "b"]))
        ⟨["a"], [["a"]]⟩
        [AppMsg.newSelection (Selection.files ⟨["a"], [["a", "b"]]⟩),
         AppMsg.newSelection (Selection.files ⟨["a"], [["a", "c"]]⟩),
         AppMsg.newRoot ["a"]] = Option.some m' ∧ m'.directories ≠ []) :=
  ⟨by decide, by decide,
    (c1_pane_stack_never_empty _ _ _ (by decide) (by decide)).1⟩

/-- C3: a valid `NewSelection` whose target is reachable from the open
panes leaves the stack with its deepest pane equal to the diff target
when the target is a directory, and equal to the target's parent when
it is a non-directory file. -/
theorem c3_diff_walk_reaches_target (isDir : Path → Bool) (root : Path)
    (names : List String) (sel : FileSelection) (j : Nat)
    (hstack : ∀ d ∈ stackOf root names, isDir d = true)
    (hj : j ≤ names.length) (hparent : sel.parent = root ++ names.take j)
    (hfiles : sel.files ≠ [])
    (hch : ∀ f ∈ sel.files, f ≠ [] ∧ f.dropLast = sel.parent) :
    ∃ m', update isDir ⟨root, stackOf root names⟩
        (AppMsg.newSelection (Selection.files sel)) = Option.some m' ∧
      m'.directories.getLast? = Option.some
        (if isDir (selectionTarget sel) = true then selectionTarget sel
         else (selectionTarget sel).dropLast) := by
  obtain ⟨names', hup, hlast, _⟩ :=
    newSelection_update isDir root names sel j hstack hj hparent hfiles hch
  refine ⟨_, hup, ?_⟩
  simp only [stackOf_getLast?, hlast]

/-- Witness for C3: stack `[/a, /a/b]`, select the non-directory file
`/a/c`; the walk pops to `/a`, which is the target's parent. -/
theorem c3_diff_walk_reaches_target_witness :
    (∀ d ∈ stackOf ["a"] ["b"],
      (fun p : Path => decide (p = ["a"] ∨ p = ["a", "b"])) d = true) ∧
    (∃ m', update (fun p : Path => decide (p = ["a"] ∨ p = ["a", "b"]))
        ⟨["a"], stackOf ["a"] ["b"]⟩
        (AppMsg.newSelection (Selection.files ⟨["a"], [["a", "c"]]⟩)) =
        Option.some m' ∧
      m'.directories.getLast? = Option.some
        (if (fun p : Path => decide (p = ["a"] ∨ p = ["a", "b"]))
            (selectionTarget ⟨["a"], [["a", "c"]]⟩) = true
         then selectionTarget ⟨["a"], [["a", "c"]]⟩
         else (selectionTarget ⟨["a"], [["a", "c"]]⟩).dropLast)) :=
  ⟨by decide,
    c3_diff_walk_reaches_target _ ["a"] ["b"] ⟨["a"], [["a", "c"]]⟩ 0
      (by decide) (by decide) (by decide) (by decide)
      (by intro f hf; rw [List.mem_singleton.mp hf]; exact ⟨by decide, by decide⟩)⟩

/-! ## Preview resolver, value level (`src/component/file_preview.rs`) -/

/-- The subset of `gio::FileType` the preview code inspects. -/
inductive GFileType where
  | regular
  | directory
  | special
  | unknown
deriving DecidableEq, Repr

/-- A parsed mime type (`mime::Mime`), as its top-level type and subtype. -/
structure Mime where
  main : String
  sub : String
deriving DecidableEq, Repr

/-- The queried `gio::FileInfo` attributes the preview logic reads. -/
structure GFileInfo where
  displayName : String
  fileType : GFileType
  contentType : Option Mime
deriving DecidableEq, Repr

/-- The asynchronous filesystem collaborators of the preview resolver:
the `STANDARD_TYPE`-only fast-path query, the full attribute query, the
file's raw bytes backing `read_start_of_file`, and the poppler PDF
loader. Each call can fail with a textual reason. -/
structure FileEnv where
  queryType : Path → Except String GFileType
  queryInfo : Path → Except String GFileInfo
  contents : Path → Except String (List Nat)
  loadPdf : Path → Except String Unit

/-- `PREVIEW_BUFFER_SIZE`: the fixed prefix size used for content
sniffing and text previews. -/
def PREVIEW_BUFFER_SIZE : Nat := 4096

/-- `read_start_of_file`: read at most `PREVIEW_BUFFER_SIZE` bytes from
the start of the file (`reader.take(PREVIEW_BUFFER_SIZE).read_to_end`),
failing if the file cannot be opened or read. -/
def readStartOfFile (env : FileEnv) (p : Path) : Except String (List Nat) :=
  match env.contents p with
  | Except.error e => Except.error e
  | Except.ok bs => Except.ok (bs.take PREVIEW_BUFFER_SIZE)

/-- `is_plain_text`: the fixed allow-list of mime types treated as
readable plain text. -/
def isPlainText (m : Mime) : Bool :=
  m.main == "text" ||
    (m.main == "application" &&
      (m.sub == "javascript" || m.sub == "json" || m.sub == "toml" ||
        m.sub == "x-shellscript" || m.sub == "xml"))

/-- The mime type derived from the queried content type, with the
`application/octet-stream` fallback for a missing content type. -/
def mimeOf (info : GFileInfo) : Mime :=
  info.contentType.getD ⟨"application", "octet-stream"⟩

/-- The `FileInfo` record built per selected file by
`query_selection_info`. -/
structure FileInfo where
  file : Path
  info : GFileInfo
  mime : Mime
  contents : Option (List Nat)
deriving DecidableEq, Repr

/-- `Result::unwrap_or_default()` on a byte-vector result: a read
failure silently becomes the empty byte list. -/
def exceptD (e : Except String (List Nat)) : List Nat :=
  match e with
  | Except.ok v => v
  | Except.error _ => []

/-- The directory fast path of `query_selection_info`: a single
selected file whose `STANDARD_TYPE` query succeeds and reports a
directory (a failing fast-path query falls through to the full
query). -/
def fastPathIsDir (env : FileEnv) (sel : FileSelection) : Bool :=
  sel.files.length == 1 &&
    match env.queryType sel.files.headI with
    | Except.ok GFileType.directory => true
    | _ => false

/-- The per-file body of `query_selection_info`: query the attributes,
derive the mime type, and read a content prefix only for a single
plain-text-like file, a read failure defaulting to empty contents. -/
def queryOneFile (env : FileEnv) (isSingleFile : Bool) (file : Path) :
    Except String FileInfo :=
  match env.queryInfo file with
  | Except.error e => Except.error e
  | Except.ok info =>
    let mime := mimeOf info
    Except.ok ⟨file, info, mime,
      if isSingleFile && isPlainText mime then
        Option.some (exceptD (readStartOfFile env file))
      else Option.none⟩

/-- `future::join_all(...)` followed by `collect::<Result<Vec<_>,_>>`:
all per-file results are produced in order and the first error, if any,
becomes the batch result. -/
def collectInfos (env : FileEnv) (isSingleFile : Bool) :
    List Path → Except String (List FileInfo)
  | [] => Except.ok []
  | file :: rest =>
    match queryOneFile env isSingleFile file, collectInfos env isSingleFile rest with
    | Except.error e, _ => Except.error e
    | Except.ok _, Except.error e => Except.error e
    | Except.ok i, Except.ok is => Except.ok (i :: is)

/-- `query_selection_info`: fast path for a single directory, else the
full per-file query. -/
def querySelectionInfo (env : FileEnv) (sel : FileSelection) :
    Except String (List FileInfo) :=
  if fastPathIsDir env sel then Except.ok []
  else collectInfos env (sel.files.length == 1) sel.files

/-- The `FilePreview` states of the component (text contents stand in
for the rendered buffer; language guessing is presentation-only). -/
inductive FilePreviewT where
  | text (contents : List Nat)
  | image (file : Path)
  | video (file : Path)
  | pdf (file : Path)
  | icon
  | error (e : String)
deriving DecidableEq, Repr

/-- `FilePreviewModel::update_single_file_preview`'s classification
match, in source order: image, video, pdf (whose load may fail into the
`Error` state), then text-vs-icon decided by the read prefix and its
null-byte guard. -/
def updateSingleFilePreview (env : FileEnv) (f : FileInfo) : FilePreviewT :=
  if f.mime.main == "image" then FilePreviewT.image f.file
  else if f.mime.main == "video" then FilePreviewT.video f.file
  else if f.mime.sub == "pdf" then
    match env.loadPdf f.file with
    | Except.ok _ => FilePreviewT.pdf f.file
    | Except.error e => FilePreviewT.error e
  else
    match f.contents with
    | Option.some c =>
      if c.contains 0 then FilePreviewT.icon else FilePreviewT.text c
    | Option.none => FilePreviewT.icon

/-- The preview component's model state: the loaded file info (an empty
list hides the preview pane entirely) and the current preview. -/
structure PreviewModel where
  info : List FileInfo
  preview : Option FilePreviewT
deriving DecidableEq, Repr

/-- The `FileInfoLoaded` arm of `FilePreviewModel::update_with_view`:
an error sets the `Error` preview state (leaving `info` alone); a
result replaces `info` and classifies according to how many files were
loaded (zero: nothing further, the empty info hides the pane; one:
single-file classification; several: the aggregate paged-icon
preview). -/
def updateLoaded (env : FileEnv) (m : PreviewModel) :
    Except String (List FileInfo) → PreviewModel
  | Except.error e => { m with preview := Option.some (FilePreviewT.error e) }
  | Except.ok infos =>
    match infos with
    | [] => { m with info := [] }
    | [f] => { info := [f], preview := Option.some (updateSingleFilePreview env f) }
    | _ => { info := infos, preview := Option.some FilePreviewT.icon }

/-- One full preview resolution for a selection: `query_selection_info`
followed by the `FileInfoLoaded` handling. -/
def resolvePreview (env : FileEnv) (m : PreviewModel) (sel : FileSelection) :
    PreviewModel :=
  updateLoaded env m (querySelectionInfo env sel)

/-- C7: a single-entry selection whose entry is reported as a directory
resolves to the empty (hidden) preview: no file info is produced, the
stored preview is untouched, and no per-file query, read or
classification happens — the result is independent of `queryInfo`,
`contents` and `loadPdf`, which the statement quantifies over. -/
theorem c7_single_directory_resolves_empty (env : FileEnv) (m : PreviewModel)
    (parent f : Path) (h : env.queryType f = Except.ok GFileType.directory) :
    querySelectionInfo env ⟨parent, [f]⟩ = Except.ok [] ∧
    (resolvePreview env m ⟨parent, [f]⟩).info = [] ∧
    (resolvePreview env m ⟨parent, [f]⟩).preview = m.preview := by
  have hfast : fastPathIsDir env ⟨parent, [f]⟩ = true := by
    simp [fastPathIsDir, List.headI, h]
  refine ⟨?_, ?_, ?_⟩ <;>
    simp [resolvePreview, querySelectionInfo, hfast, updateLoaded]

/-- Witness for C7 at a concrete environment. -/
theorem c7_single_directory_resolves_empty_witness :
    ({ queryType := fun _ => Except.ok GFileType.directory,
       queryInfo := fun _ => Except.error "unused",
       contents := fun _ => Except.error "unused",
       loadPdf := fun _ => Except.error "unused" } : FileEnv).queryType ["d"] =
      Except.ok GFileType.directory ∧
    querySelectionInfo
      { queryType := fun _ => Except.ok GFileType.directory,
        queryInfo := fun _ => Except.error "unused",
        contents := fun _ => Except.error "unused",
        loadPdf := fun _ => Except.error "unused" } ⟨[], [["d"]]⟩ =
      Except.ok [] :=
  ⟨rfl,
    (c7_single_directory_resolves_empty _ ⟨[], Option.none⟩ [] ["d"] rfl).1⟩

/-- A concrete environment with a single regular `text/plain` file
whose content read fails. -/
def envReadFails : FileEnv :=
  { queryType := fun _ => Except.ok GFileType.regular,
    queryInfo := fun _ =>
      Except.ok ⟨"f.txt", GFileType.regular, Option.some ⟨"text", "plain"⟩⟩,
    contents := fun _ => Except.error "read failed",
    loadPdf := fun _ => Except.error "unused" }

/-- C5 counterexample: for a single regular `text/plain` file whose
content-prefix read fails, the claim predicts the `Error` preview
state; the code instead swallows the read failure
(`read_start_of_file(&file).await.unwrap_or_default()`) and produces an
empty text preview. -/
theorem c5_counterexample :
    (resolvePreview envReadFails ⟨[], Option.none⟩ ⟨[], [["f.txt"]]⟩).preview =
      Option.some (FilePreviewT.text []) ∧
    ∀ e, (resolvePreview envReadFails ⟨[], Option.none⟩ ⟨[], [["f.txt"]]⟩).preview ≠
      Option.some (FilePreviewT.error e) := by
  refine ⟨rfl, ?_⟩
  intro e h
  rw [(rfl :
    (resolvePreview envReadFails ⟨[], Option.none⟩ ⟨[], [["f.txt"]]⟩).preview =
      Option.some (FilePreviewT.text []))] at h
  exact FilePreviewT.noConfusion (Option.some.inj h)

/-- C5 amended: for a single-file selection off the directory fast
path, a metadata-query failure does yield the `Error` preview state
carrying the failure's reason, in a single query attempt and leaving
the loaded info alone; a content-prefix read failure, however, is
swallowed by `unwrap_or_default`: the contents default to empty and a
plain-text-like file gets an empty text preview, never `Error`. -/
theorem c5_amended_metadata_error_only (env : FileEnv) (m : PreviewModel)
    (parent f : Path) (e : String)
    (hft : ∀ t, env.queryType f = Except.ok t → t ≠ GFileType.directory) :
    (env.queryInfo f = Except.error e →
      (resolvePreview env m ⟨parent, [f]⟩).preview =
        Option.some (FilePreviewT.error e) ∧
      (resolvePreview env m ⟨parent, [f]⟩).info = m.info) ∧
    (∀ info, env.queryInfo f = Except.ok info →
      env.contents f = Except.error e →
      isPlainText (mimeOf info) = true →
      (mimeOf info).sub ≠ "pdf" →
      (resolvePreview env m ⟨parent, [f]⟩).preview =
        Option.some (FilePreviewT.text [])) := by
  have hfast : fastPathIsDir env ⟨parent, [f]⟩ = false := by
    simp only [fastPathIsDir, List.headI]
    cases hq : env.queryType f with
    | error e' => simp
    | ok t =>
      cases t with
      | directory => exact absurd rfl (hft _ hq)
      | regular => simp
      | special => simp
      | unknown => simp
  constructor
  · intro herr
    have hq : querySelectionInfo env ⟨parent, [f]⟩ = Except.error e := by
      simp [querySelectionInfo, hfast, collectInfos, queryOneFile, herr]
    refine ⟨?_, ?_⟩ <;> simp [resolvePreview, hq, updateLoaded]
  · intro info hinfo hread hplain hsub
    have hmain : (mimeOf info).main ≠ "image" ∧ (mimeOf info).main ≠ "video" := by
      simp only [isPlainText, Bool.or_eq_true, Bool.and_eq_true, beq_iff_eq] at hplain
      rcases hplain with h | ⟨h, _⟩ <;> rw [h] <;> exact ⟨by decide, by decide⟩
    have hq : querySelectionInfo env ⟨parent, [f]⟩ =
        Except.ok [⟨f, info, mimeOf info, Option.some []⟩] := by
      simp [querySelectionInfo, hfast, collectInfos, queryOneFile, hinfo, hplain,
        exceptD, readStartOfFile, hread]
    simp only [resolvePreview, hq, updateLoaded]
    simp [updateSingleFilePreview, hmain.1, hmain.2, hsub, List.contains]

/-- Witness for C5's amended theorem: both conjuncts instantiated at a
concrete environment. -/
theorem c5_amended_metadata_error_only_witness :
    ((fun _ : Path => Except.error "query failed" :
        Path → Except String GFileInfo) ["f.txt"] =
      Except.error "query failed") ∧
    (resolvePreview
        { queryType := fun _ => Except.ok GFileType.regular,
          queryInfo := fun _ => Except.error "query failed",
          contents := fun _ => Except.error "unused",
          loadPdf := fun _ => Except.error "unused" }
        ⟨[], Option.none⟩ ⟨[], [["f.txt"]]⟩).preview =
      Option.some (FilePreviewT.error "query failed") :=
  ⟨rfl,
    ((c5_amended_metadata_error_only
      { queryType := fun _ => Except.ok GFileType.regular,
        queryInfo := fun _ => Except.error "query failed",
        contents := fun _ => Except.error "unused",
        loadPdf := fun _ => Except.error "unused" }
      ⟨[], Option.none⟩ [] ["f.txt"] "query failed"
      (fun t ht => by
        cases ht
        decide)).1 rfl).1⟩

/-- C6: single-file plain-text classification. Plain-text-likeness is
decided exactly by the fixed allow-list (`text/*` plus the listed
`application` subtypes); the content read returns at most a
4096-byte prefix; for a plain-text-like mime a null byte in that prefix
demotes the preview to the opaque icon, no null byte gives the text
preview of the prefix, and a mime outside the allow-list (that is not
an image, video or pdf) gets the icon preview without any text
rendering. -/
theorem c6_plain_text_allow_list (env : FileEnv) (m : PreviewModel)
    (parent f : Path) (info : GFileInfo) (bs : List Nat)
    (hft : ∀ t, env.queryType f = Except.ok t → t ≠ GFileType.directory)
    (hinfo : env.queryInfo f = Except.ok info)
    (hbs : env.contents f = Except.ok bs)
    (hmain : (mimeOf info).main ≠ "image" ∧ (mimeOf info).main ≠ "video")
    (hsub : (mimeOf info).sub ≠ "pdf") :
    (isPlainText (mimeOf info) = true ↔
      ((mimeOf info).main = "text" ∨
        ((mimeOf info).main = "application" ∧
          (mimeOf info).sub ∈ ["javascript", "json", "toml", "x-shellscript", "xml"]))) ∧
    (∀ pfx, readStartOfFile env f = Except.ok pfx →
      pfx.length ≤ PREVIEW_BUFFER_SIZE ∧ pfx = bs.take PREVIEW_BUFFER_SIZE) ∧
    (isPlainText (mimeOf info) = true →
      (bs.take PREVIEW_BUFFER_SIZE).contains 0 = true →
      (resolvePreview env m ⟨parent, [f]⟩).preview =
        Option.some FilePreviewT.icon) ∧
    (isPlainText (mimeOf info) = true →
      (bs.take PREVIEW_BUFFER_SIZE).contains 0 = false →
      (resolvePreview env m ⟨parent, [f]⟩).preview =
        Option.some (FilePreviewT.text (bs.take PREVIEW_BUFFER_SIZE))) ∧
    (isPlainText (mimeOf info) = false →
      (resolvePreview env m ⟨parent, [f]⟩).preview =
        Option.some FilePreviewT.icon) := by
  have hfast : fastPathIsDir env ⟨parent, [f]⟩ = false := by
    simp only [fastPathIsDir, List.headI]
    cases hq : env.queryType f with
    | error e' => simp
    | ok t =>
      cases t with
      | directory => exact absurd rfl (hft _ hq)
      | regular => simp
      | special => simp
      | unknown => simp
  refine ⟨?_, ?_, ?_, ?_, ?_⟩
  · simp [isPlainText, or_assoc]
  · intro pfx hpfx
    simp only [readStartOfFile, hbs] at hpfx
    cases hpfx
    exact ⟨by simp, rfl⟩
  · intro hplain hnull
    have hq : querySelectionInfo env ⟨parent, [f]⟩ =
        Except.ok [⟨f, info, mimeOf info,
          Option.some (bs.take PREVIEW_BUFFER_SIZE)⟩] := by
      simp [querySelectionInfo, hfast, collectInfos, queryOneFile, hinfo, hplain,
        exceptD, readStartOfFile, hbs]
    have hmem : 0 ∈ bs.take PREVIEW_BUFFER_SIZE := by simpa using hnull
    simp only [resolvePreview, hq, updateLoaded]
    simp [updateSingleFilePreview, hmain.1, hmain.2, hsub, hmem]
  · intro hplain hnull
    have hq : querySelectionInfo env ⟨parent, [f]⟩ =
        Except.ok [⟨f, info, mimeOf info,
          Option.some (bs.take PREVIEW_BUFFER_SIZE)⟩] := by
      simp [querySelectionInfo, hfast, collectInfos, queryOneFile, hinfo, hplain,
        exceptD, readStartOfFile, hbs]
    have hmem : 0 ∉ bs.take PREVIEW_BUFFER_SIZE := by simpa using hnull
    simp only [resolvePreview, hq, updateLoaded]
    simp [updateSingleFilePreview, hmain.1, hmain.2, hsub, hmem]
  · intro hplain
    have hq : querySelectionInfo env ⟨parent, [f]⟩ =
        Except.ok [⟨f, info, mimeOf info, Option.none⟩] := by
      simp [querySelectionInfo, hfast, collectInfos, queryOneFile, hinfo, hplain]
    simp only [resolvePreview, hq, updateLoaded]
    simp [updateSingleFilePreview, hmain.1, hmain.2, hsub]

/-- Witness for C6: a `text/plain` file whose 4096-byte prefix contains
a null byte is demoted to the icon preview. -/
theorem c6_plain_text_allow_list_witness :
    isPlainText (mimeOf ⟨"f.txt", GFileType.regular,
        Option.some ⟨"text", "plain"⟩⟩) = true ∧
    (resolvePreview
        { queryType := fun _ => Except.ok GFileType.regular,
          queryInfo := fun _ => Except.ok
            ⟨"f.txt", GFileType.regular, Option.some ⟨"text", "plain"⟩⟩,
          contents := fun _ => Except.ok [104, 0, 105],
          loadPdf := fun _ => Except.error "unused" }
        ⟨[], Option.none⟩ ⟨[], [["f.txt"]]⟩).preview =
      Option.some FilePreviewT.icon :=
  ⟨rfl,
    (c6_plain_text_allow_list
        { queryType := fun _ => Except.ok GFileType.regular,
          queryInfo := fun _ => Except.ok
            ⟨"f.txt", GFileType.regular, Option.some ⟨"text", "plain"⟩⟩,
          contents := fun _ => Except.ok [104, 0, 105],
          loadPdf := fun _ => Except.error "unused" }
        ⟨[], Option.none⟩ [] ["f.txt"]
        ⟨"f.txt", GFileType.regular, Option.some ⟨"text", "plain"⟩⟩
        [104, 0, 105]
        (fun t ht => by
          cases ht
          decide)
        rfl rfl
        ⟨(by decide), (by decide)⟩
        (by decide)).2.2.1 rfl (by decide)⟩

/-! ## Preview resolver, message level: supersession of in-flight
resolutions (`FilePreviewMsg::NewSelection` / `FileInfoLoaded` with the
`AbortHandle` in `abort_preview`) -/

/-- An in-flight resolution task spawned by a `NewSelection`, carrying
the abort flag of its `Abortable` registration. Resolutions are
identified by the generation `tid` in which they were requested. -/
structure TaskRec where
  tid : Nat
  aborted : Bool
deriving DecidableEq, Repr

/-- Messages in the preview component's input queue. -/
inductive PMsg where
  | newSelection (tid : Nat)
  | fileInfoLoaded (tid : Nat)
deriving DecidableEq, Repr

/-- The preview subsystem: the component's FIFO input queue, the
spawned resolution tasks, the `abort_preview` slot (the id whose
`AbortHandle` is currently held), the ids requested so far in request
order, and the observation log: each application of a result to the
preview state, as the result's id paired with the requests existing at
that moment. -/
structure Sys where
  queue : List PMsg
  tasks : List TaskRec
  registered : Option Nat
  requests : List Nat
  applied : List (Nat × List Nat)
deriving DecidableEq, Repr

/-- Scheduler actions on the glib main loop: the application requests a
new resolution (enqueues its `NewSelection`); a resolution's I/O
completes and its task is polled; the component dequeues and processes
one message. -/
inductive Action where
  | request (tid : Nat)
  | poll (tid : Nat)
  | deliver
deriving DecidableEq, Repr

/-- `handle.abort()` on the handle held in `abort_preview`, if any. -/
def abortRegistered (reg : Option Nat) (tasks : List TaskRec) : List TaskRec :=
  match reg with
  | Option.none => tasks
  | Option.some a =>
    tasks.map fun t => if t.tid = a then { t with aborted := true } else t

/-- One scheduler step. Delivering `NewSelection` mirrors the
`FilePreviewMsg::NewSelection` arm: the previously registered handle is
aborted (`abort_preview.replace(..)` + `handle.abort()`), the new
resolution's handle is registered, its task is spawned. Delivering
`FileInfoLoaded` mirrors that arm: `abort_preview.take()` drops the
held handle without aborting its task, and the result is applied to the
preview state. Polling a completed task sends `FileInfoLoaded` exactly
when its `Abortable` registration was never aborted (the task body
sends synchronously after its final successful poll). -/
def step (σ : Sys) : Action → Sys
  | Action.request tid =>
    { σ with queue := σ.queue ++ [PMsg.newSelection tid],
             requests := σ.requests ++ [tid] }
  | Action.poll tid =>
    match σ.tasks.find? (fun t => t.tid == tid) with
    | Option.none => σ
    | Option.some t =>
      { σ with tasks := σ.tasks.filter fun u => u.tid != tid,
               queue := if t.aborted then σ.queue
                        else σ.queue ++ [PMsg.fileInfoLoaded tid] }
  | Action.deliver =>
    match σ.queue with
    | [] => σ
    | PMsg.newSelection tid :: rest =>
      { σ with queue := rest,
               tasks := abortRegistered σ.registered σ.tasks ++ [⟨tid, false⟩],
               registered := Option.some tid }
    | PMsg.fileInfoLoaded tid :: rest =>
      { σ with queue := rest,
               registered := Option.none,
               applied := σ.applied ++ [(tid, σ.requests)] }

def runSys (σ : Sys) : List Action → Sys
  | [] => σ
  | a :: acts => runSys (step σ a) acts

def initSys : Sys := ⟨[], [], Option.none, [], []⟩

/-- Request actions must use fresh generation ids: every selection
change is a distinct resolution. -/
def validActsFrom (σ : Sys) : List Action → Bool
  | [] => true
  | Action.request tid :: rest =>
    decide (tid ∉ σ.requests) && validActsFrom (step σ (Action.request tid)) rest
  | a :: rest => validActsFrom (step σ a) rest

/-- The claim as stated: whenever a result reaches the preview state,
it belongs to the most recently requested resolution — equivalently, no
result of a resolution `A` is applied once a later resolution `B` has
been requested. -/
def staleNeverApplied (acts : List Action) : Prop :=
  ∀ e ∈ (runSys initSys acts).applied, e.2.getLast? = Option.some e.1

/-- C2 counterexample: request resolution 0, start it, request
resolution 1, let 0's task complete and enqueue its result before 1's
`NewSelection` is dequeued, then deliver both queued messages. The
abort at 1's start comes too late — 0's completion is already in the
queue — so 0's stale result is applied after 1 was requested,
violating the claim. -/
theorem c2_counterexample :
    ¬ ∀ acts, validActsFrom initSys acts = true → staleNeverApplied acts := by
  intro h
  have hrun := h [Action.request 0, Action.deliver, Action.request 1,
                  Action.poll 0, Action.deliver, Action.deliver] (by decide)
  exact absurd (hrun (0, [0, 1]) (by decide)) (by decide)

/-- A resolution generation is dead in a state when any task of its
generation is aborted and no message of its generation is queued (and
it was indeed requested). A dead generation can never reach the
preview state again. -/
def DeadGen (a : Nat) (σ : Sys) : Prop :=
  (∀ t ∈ σ.tasks, t.tid = a → t.aborted = true) ∧
  PMsg.newSelection a ∉ σ.queue ∧
  PMsg.fileInfoLoaded a ∉ σ.queue ∧
  a ∈ σ.requests

theorem deadGen_step (a : Nat) (σ : Sys) (act : Action)
    (hd : DeadGen a σ)
    (hv : ∀ tid, act = Action.request tid → tid ∉ σ.requests) :
    DeadGen a (step σ act) ∧
      ∀ e ∈ (step σ act).applied, e ∈ σ.applied ∨ e.1 ≠ a := by
  obtain ⟨ht, hns, hfl, hreq⟩ := hd
  cases act with
  | request tid =>
    have htid : tid ≠ a := fun hc => hv tid rfl (hc ▸ hreq)
    refine ⟨⟨?_, ?_, ?_, ?_⟩, ?_⟩
    · simpa [step] using ht
    · simp only [step, List.mem_append, List.mem_singleton]
      rintro (h | h)
      · exact hns h
      · exact htid (by injection h with h'; exact h'.symm)
    · simp only [step, List.mem_append, List.mem_singleton]
      rintro (h | h)
      · exact hfl h
      · cases h
    · simp [step, hreq]
    · intro e he
      exact Or.inl (by simpa [step] using he)
  | poll tid =>
    cases hfind : σ.tasks.find? (fun t => t.tid == tid) with
    | none =>
      simp only [step, hfind]
      exact ⟨⟨ht, hns, hfl, hreq⟩, fun e he => Or.inl he⟩
    | some t =>
      simp only [step, hfind]
      have htmem : t ∈ σ.tasks := List.mem_of_find?_eq_some hfind
      have httid : t.tid = tid := by
        have := List.find?_some hfind
        simpa using this
      have hta : ∀ u ∈ σ.tasks.filter (fun u => u.tid != tid), u.tid = a →
          u.aborted = true :=
        fun u hu hua => ht u (List.mem_filter.mp hu).1 hua
      by_cases habt : t.aborted = true
      · rw [if_pos habt]
        exact ⟨⟨hta, hns, hfl, hreq⟩, fun e he => Or.inl he⟩
      · rw [if_neg habt]
        have htida : tid ≠ a := fun hc => habt (ht t htmem (hc ▸ httid))
        refine ⟨⟨hta, ?_, ?_, hreq⟩, fun e he => Or.inl he⟩
        · intro hmem
          rcases List.mem_append.mp hmem with h | h
          · exact hns h
          · exact PMsg.noConfusion (List.mem_singleton.mp h)
        · intro hmem
          rcases List.mem_append.mp hmem with h | h
          · exact hfl h
          · exact htida (by injection (List.mem_singleton.mp h) with h'; exact h'.symm)
  | deliver =>
    cases hqueue : σ.queue with
    | nil => simp only [step, hqueue]; exact ⟨⟨ht, hns, hfl, hreq⟩, fun e he => Or.inl he⟩
    | cons msg rest =>
      cases msg with
      | newSelection tid =>
        have htid : tid ≠ a := by
          intro hc
          subst hc
          exact hns (hqueue ▸ List.mem_cons_self _ _)
        simp only [step, hqueue]
        refine ⟨⟨?_, ?_, ?_, ?_⟩, ?_⟩
        · intro u hu hua
          rcases List.mem_append.mp hu with h | h
          · cases hr : σ.registered with
            | none =>
              rw [hr] at h
              simp only [abortRegistered] at h
              exact ht u h hua
            | some r =>
              rw [hr] at h
              simp only [abortRegistered] at h
              rcases List.mem_map.mp h with ⟨v, hv', rfl⟩
              by_cases hcv : v.tid = r
              · simp [hcv]
              · simp only [if_neg hcv] at hua ⊢
                exact ht v hv' hua
          · rw [List.mem_singleton.mp h] at hua
            exact absurd hua htid
        · intro h
          exact hns (hqueue ▸ List.mem_cons_of_mem _ h)
        · intro h
          exact hfl (hqueue ▸ List.mem_cons_of_mem _ h)
        · exact hreq
        · intro e he
          exact Or.inl he
      | fileInfoLoaded tid =>
        have htid : tid ≠ a := by
          intro hc
          subst hc
          exact hfl (hqueue ▸ List.mem_cons_self _ _)
        simp only [step, hqueue]
        refine ⟨⟨ht, ?_, ?_, hreq⟩, ?_⟩
        · intro h
          exact hns (hqueue ▸ List.mem_cons_of_mem _ h)
        · intro h
          exact hfl (hqueue ▸ List.mem_cons_of_mem _ h)
        · intro e he
          rcases List.mem_append.mp he with h | h
          · exact Or.inl h
          · right
            rw [List.mem_singleton.mp h]
            exact htid

theorem deadGen_run (a : Nat) :
    ∀ (acts : List Action) (σ : Sys), DeadGen a σ →
      validActsFrom σ acts = true →
      ∀ e ∈ (runSys σ acts).applied, e.1 = a → e ∈ σ.applied := by
  intro acts
  induction acts with
  | nil =>
    intro σ _ _ e he _
    exact he
  | cons act rest ih =>
    intro σ hd hv e he hea
    have hv' : validActsFrom (step σ act) rest = true ∧
        ∀ tid, act = Action.request tid → tid ∉ σ.requests := by
      cases act with
      | request tid =>
        simp only [validActsFrom, Bool.and_eq_true, decide_eq_true_eq] at hv
        exact ⟨hv.2, fun tid' h => by injection h with h'; exact h' ▸ hv.1⟩
      | poll tid => exact ⟨hv, fun _ h => Action.noConfusion h⟩
      | deliver => exact ⟨hv, fun _ h => Action.noConfusion h⟩
    obtain ⟨hd', happ⟩ := deadGen_step a σ act hd hv'.2
    have hin : e ∈ (step σ act).applied := ih (step σ act) hd' hv'.1 e he hea
    rcases happ e hin with h | h
    · exact h
    · exact absurd hea h

/-- C2 amended: when `NewSelection(b)` is dequeued (resolution `b`
starts) while resolution `a`'s handle is still the one registered in
`abort_preview` and no message of `a`'s generation is pending in the
queue, `a` is aborted at that moment and `a`'s result is never applied
to the preview state afterwards. (The counterexample shows the
remaining window: a completion of `a` already enqueued between `b`'s
request and `b`'s start — or an `a` whose registration was dropped by
an intervening `FileInfoLoaded` delivery — can still be applied after
`b` was requested.) -/
theorem c2_amended_registered_abort_discards (σ : Sys) (a b : Nat)
    (rest : List PMsg) (acts : List Action)
    (hq : σ.queue = PMsg.newSelection b :: rest)
    (hreg : σ.registered = Option.some a)
    (hab : a ≠ b)
    (hnsq : PMsg.newSelection a ∉ rest)
    (hflq : PMsg.fileInfoLoaded a ∉ rest)
    (hreqs : a ∈ σ.requests)
    (hclean : ∀ e ∈ σ.applied, e.1 ≠ a)
    (hv : validActsFrom (step σ Action.deliver) acts = true) :
    ∀ e ∈ (runSys (step σ Action.deliver) acts).applied, e.1 ≠ a := by
  have happ : (step σ Action.deliver).applied = σ.applied := by
    simp [step, hq]
  have hd : DeadGen a (step σ Action.deliver) := by
    simp only [step, hq, hreg]
    refine ⟨?_, hnsq, hflq, hreqs⟩
    intro t htmem hta
    rcases List.mem_append.mp htmem with h | h
    · simp only [abortRegistered] at h
      rcases List.mem_map.mp h with ⟨v, hv', rfl⟩
      by_cases hcv : v.tid = a
      · simp [hcv]
      · simp only [if_neg hcv] at hta ⊢
        exact absurd hta hcv
    · rw [List.mem_singleton.mp h] at hta
      exact absurd hta.symm hab
  intro e he hea
  have hmem := deadGen_run a acts (step σ Action.deliver) hd hv e he hea
  rw [happ] at hmem
  exact hclean e hmem hea

/-- Witness for the amended C2 theorem: resolution 0 is registered and
in flight when resolution 1's `NewSelection` is dequeued; afterwards
polling 0 enqueues nothing and no application of 0 ever occurs. -/
theorem c2_amended_registered_abort_discards_witness :
    (⟨[PMsg.newSelection 1], [⟨0, false⟩], Option.some 0, [0, 1], []⟩ :
        Sys).registered = Option.some 0 ∧
    ∀ e ∈ (runSys (step
        (⟨[PMsg.newSelection 1], [⟨0, false⟩], Option.some 0, [0, 1], []⟩ : Sys)
        Action.deliver) [Action.poll 0, Action.deliver]).applied, e.1 ≠ 0 :=
  ⟨rfl,
    c2_amended_registered_abort_discards
      ⟨[PMsg.newSelection 1], [⟨0, false⟩], Option.some 0, [0, 1], []⟩
      0 1 [] [Action.poll 0, Action.deliver] rfl rfl (by decide)
      (by decide) (by decide) (by decide)
      (fun e he => absurd he (List.not_mem_nil e)) (by decide)⟩

/-! ## Trash batch (`DirectoryMessage::TrashSelection` in
`src/component/directory_list.rs`) -/

instance {ε α : Type} [DecidableEq ε] [DecidableEq α] : DecidableEq (Except ε α)
  | Except.ok a, Except.ok b =>
    if h : a = b then isTrue (h ▸ rfl)
    else isFalse fun hc => h (by injection hc)
  | Except.ok _, Except.error _ => isFalse fun hc => Except.noConfusion hc
  | Except.error _, Except.ok _ => isFalse fun hc => Except.noConfusion hc
  | Except.error a, Except.error b =>
    if h : a = b then isTrue (h ▸ rfl)
    else isFalse fun hc => h (by injection hc)

/-- One selected entry as seen by the trash handler: its display name
and the outcome its individual `trash_future` call will produce. -/
structure TrashEntry where
  displayName : String
  trashResult : Except String Unit
deriving DecidableEq, Repr

/-- The messages the trash handler emits to the application. -/
inductive OutMsg where
  | error (e : String)
  | toast (s : String)
deriving DecidableEq, Repr

/-- The entries whose `trash_future` succeeded, in selection order
(`trashed_files` in the handler). -/
def trashSuccesses (entries : List TrashEntry) : List TrashEntry :=
  entries.filter fun f =>
    match f.trashResult with
    | Except.ok _ => true
    | Except.error _ => false

/-- The toast text: `'{name}' moved to trash` for a single success,
`{n} files moved to trash` otherwise. -/
def trashToastText (trashed : List TrashEntry) : String :=
  match trashed with
  | [f] => "'" ++ f.displayName ++ "' moved to trash"
  | _ => toString trashed.length ++ " files moved to trash"

/-- `DirectoryMessage::TrashSelection`: every selected entry's
`trash_future` is awaited (`join_all`, so one failure never prevents
the other calls); each failed entry emits one `AppMsg::Error` carrying
its own failure, in selection order; the successes are collected and,
when any exist, reported in one `AppMsg::Toast`. -/
def trashSelection (entries : List TrashEntry) : List OutMsg :=
  (entries.filterMap fun f =>
    match f.trashResult with
    | Except.error e => Option.some (OutMsg.error e)
    | Except.ok _ => Option.none) ++
  (if (trashSuccesses entries).isEmpty then []
   else [OutMsg.toast (trashToastText (trashSuccesses entries))])

theorem trashSuccesses_ne_nil_iff (entries : List TrashEntry) :
    trashSuccesses entries ≠ [] ↔ ∃ f ∈ entries, f.trashResult = Except.ok () := by
  constructor
  · intro hne
    rcases List.exists_cons_of_ne_nil hne with ⟨f, fs, hf⟩
    have hfmem := List.mem_filter.mp (hf ▸ List.mem_cons_self f fs)
    refine ⟨f, hfmem.1, ?_⟩
    have h2 := hfmem.2
    cases hres : f.trashResult with
    | ok u => cases u; rfl
    | error e =>
      rw [hres] at h2
      simp at h2
  · rintro ⟨f, hfmem, hfok⟩ hc
    have hin : f ∈ trashSuccesses entries :=
      List.mem_filter.mpr ⟨hfmem, by rw [hfok]⟩
    rw [hc] at hin
    cases hin

theorem trashToastText_plural (l : List TrashEntry) (h : l.length ≠ 1) :
    trashToastText l = toString l.length ++ " files moved to trash" := by
  unfold trashToastText
  cases l with
  | nil => rfl
  | cons x xs =>
    cases xs with
    | nil => exact absurd rfl h
    | cons y ys => rfl

theorem toast_mem_trashSelection (entries : List TrashEntry)
    (hne : trashSuccesses entries ≠ []) :
    OutMsg.toast (trashToastText (trashSuccesses entries)) ∈
      trashSelection entries := by
  have hnemp : (trashSuccesses entries).isEmpty = false :=
    List.isEmpty_eq_false.mpr hne
  simp only [trashSelection, List.mem_append, hnemp]
  right
  simp

/-- C4: entries are trashed independently — the emitted messages
contain exactly one error per failing entry (in order, carrying that
entry's failure), a success toast exists iff at least one entry
succeeded, a single success names the file, several successes are
counted, and one invocation can produce error reports and a success
report together. -/
theorem c4_trash_batch_independent :
    (∀ entries : List TrashEntry,
      (trashSelection entries).filterMap
          (fun msg => match msg with
            | OutMsg.error e => Option.some e
            | OutMsg.toast _ => Option.none) =
        entries.filterMap (fun f =>
          match f.trashResult with
          | Except.error e => Option.some e
          | Except.ok _ => Option.none) ∧
      ((∃ s, OutMsg.toast s ∈ trashSelection entries) ↔
        ∃ f ∈ entries, f.trashResult = Except.ok ()) ∧
      (∀ f : TrashEntry, trashSuccesses entries = [f] →
        OutMsg.toast ("'" ++ f.displayName ++ "' moved to trash") ∈
          trashSelection entries) ∧
      (2 ≤ (trashSuccesses entries).length →
        OutMsg.toast (toString (trashSuccesses entries).length ++
            " files moved to trash") ∈
          trashSelection entries)) ∧
    (∃ entries : List TrashEntry, ∃ e s,
      OutMsg.error e ∈ trashSelection entries ∧
      OutMsg.toast s ∈ trashSelection entries) := by
  constructor
  · intro entries
    refine ⟨?_, ?_, ?_, ?_⟩
    · simp only [trashSelection, List.filterMap_append]
      have htoast :
          (if (trashSuccesses entries).isEmpty then ([] : List OutMsg)
           else [OutMsg.toast (trashToastText (trashSuccesses entries))]).filterMap
            (fun msg => match msg with
              | OutMsg.error e => Option.some e
              | OutMsg.toast _ => Option.none) = [] := by
        by_cases h : (trashSuccesses entries).isEmpty <;> simp [h]
      rw [htoast, List.append_nil, List.filterMap_filterMap]
      congr 1
      funext f
      cases f.trashResult <;> rfl
    · constructor
      · rintro ⟨s, hs⟩
        rw [← trashSuccesses_ne_nil_iff]
        simp only [trashSelection, List.mem_append] at hs
        rcases hs with hs | hs
        · exfalso
          rcases List.mem_filterMap.mp hs with ⟨f, _, hf⟩
          cases hres : f.trashResult <;> rw [hres] at hf <;> simp at hf
        · intro hc
          rw [hc] at hs
          simp at hs
      · intro hex
        have hne := (trashSuccesses_ne_nil_iff entries).mpr hex
        exact ⟨_, toast_mem_trashSelection entries hne⟩
    · intro f hf
      have hmem := toast_mem_trashSelection entries (by rw [hf]; exact List.cons_ne_nil f [])
      rw [hf] at hmem
      exact hmem
    · intro h2
      have hne : trashSuccesses entries ≠ [] := by
        intro hc
        rw [hc] at h2
        simp at h2
      have hmem := toast_mem_trashSelection entries hne
      rw [trashToastText_plural (trashSuccesses entries) (by omega)] at hmem
      exact hmem
  · refine ⟨[⟨"bad", Except.error "gone"⟩, ⟨"good", Except.ok ()⟩],
      "gone", "'" ++ "good" ++ "' moved to trash", ?_, ?_⟩ <;> decide

/-- Witness for C4's conditional conjuncts at a concrete batch of one
failing and one succeeding entry. -/
theorem c4_trash_batch_independent_witness :
    OutMsg.toast ("'" ++ "good" ++ "' moved to trash") ∈
      trashSelection [⟨"bad", Except.error "gone"⟩, ⟨"good", Except.ok ()⟩] :=
  (c4_trash_batch_independent.1
    [⟨"bad", Except.error "gone"⟩, ⟨"good", Except.ok ()⟩]).2.2.1
    ⟨"good", Except.ok ()⟩ (by decide)

/-! ## Drop-to-move (`filesystem::handle_drop` in `src/filesystem.rs`) -/

/-- Effects `handle_drop` can produce: calling `gio::File::move_` (the
only filesystem mutation, whose backend may report progress), and
emitting an error to the application. -/
inductive DropEffect where
  | moveFile (src dst : Path)
  | reportError (e : String)
deriving DecidableEq, Repr

/-- `filesystem::handle_drop`: resolve the destination as the target
directory joined with the dropped file's base name; if that equals the
source, return immediately; otherwise move, reporting a failure as an
error. `moveResult` stands for the backend's outcome of the move
call. -/
def handleDrop (moveResult : Path → Path → Except String Unit)
    (file destination : Path) : List DropEffect :=
  let destinationFile := destination ++ [file.getLastD ""]
  if destinationFile = file then []
  else
    DropEffect.moveFile file destinationFile ::
      (match moveResult file destinationFile with
       | Except.ok _ => []
       | Except.error e => [DropEffect.reportError e])

/-- C8: when the source equals the resolved destination (destination
directory joined with the source's base name), the drop is a complete
no-op — no move call (hence no filesystem mutation and no progress) and
no error report, whatever the backend would have answered. -/
theorem c8_move_to_self_noop (moveResult : Path → Path → Except String Unit)
    (file destination : Path)
    (heq : destination ++ [file.getLastD ""] = file) :
    handleDrop moveResult file destination = [] := by
  unfold handleDrop
  rw [if_pos heq]

/-- Witness for C8: dropping `/a/f` onto `/a` resolves to `/a/f` itself
and produces no effects, even against a backend that would fail. -/
theorem c8_move_to_self_noop_witness :
    (["a"] ++ [(["a", "f"] : Path).getLastD ""] = (["a", "f"] : Path)) ∧
    handleDrop (fun _ _ => Except.error "backend would fail")
      ["a", "f"] ["a"] = [] :=
  ⟨by decide,
    c8_move_to_self_noop (fun _ _ => Except.error "backend would fail")
      ["a", "f"] ["a"] (by decide)⟩

/-! ## Selection construction (`send_new_selection` in
`src/directory_list.rs`) -/

/-- `send_new_selection`: an empty selected set becomes
`Selection::None`; otherwise the selected positions are resolved
against the listing of the pane's directory (`items` are the entry
names listed for `dir`; a position out of range yields no item and is
skipped by the `flat_map`) and reported as `Selection::Files` with the
pane's directory as parent. -/
def sendNewSelection (dir : Path) (items : List String) (selected : List Nat) :
    Selection :=
  if selected.isEmpty then Selection.noSelection
  else
    Selection.files ⟨dir,
      selected.filterMap fun pos => (items.get? pos).map fun n => dir ++ [n]⟩

/-- C9: the translation yields `Selection::None` exactly when the
selected set is empty, and otherwise a `Files` value whose list is
non-empty, whose parent is the listed directory, and all of whose
members are children of that directory. -/
theorem c9_selection_files_invariant (dir : Path) (items : List String)
    (selected : List Nat) (hpos : ∀ p ∈ selected, p < items.length) :
    (sendNewSelection dir items selected = Selection.noSelection ↔
      selected = []) ∧
    (∀ sel, sendNewSelection dir items selected = Selection.files sel →
      sel.files ≠ [] ∧ sel.parent = dir ∧
        ∀ f ∈ sel.files, ∃ n, f = dir ++ [n]) := by
  constructor
  · constructor
    · intro h
      by_contra hc
      rw [sendNewSelection, if_neg (by simpa using hc)] at h
      cases h
    · intro h
      rw [sendNewSelection, if_pos (by simp [h])]
  · intro sel hsel
    cases hsel0 : selected with
    | nil =>
      rw [hsel0, sendNewSelection] at hsel
      cases hsel
    | cons p ps =>
      rw [hsel0] at hsel
      rw [sendNewSelection, if_neg (by simp)] at hsel
      injection hsel with hsel
      subst hsel
      refine ⟨?_, rfl, ?_⟩
      · have hp : p < items.length := hpos p (hsel0 ▸ List.mem_cons_self p ps)
        have hget : items.get? p = Option.some (items.get ⟨p, hp⟩) :=
          List.get?_eq_get hp
        simp only [List.filterMap_cons, hget, Option.map_some']
        exact List.cons_ne_nil _ _
      · intro f hf
        rcases List.mem_filterMap.mp hf with ⟨pos, _, hpos'⟩
        cases hitem : items.get? pos with
        | none => rw [hitem] at hpos'; cases hpos'
        | some n =>
          rw [hitem] at hpos'
          injection hpos' with h
          exact ⟨n, h.symm⟩

/-- Witness for C9 at a concrete listing and selected set. -/
theorem c9_selection_files_invariant_witness :
    (∀ p ∈ [1], p < (["x", "y"] : List String).length) ∧
    (∀ sel, sendNewSelection ["a"] ["x", "y"] [1] = Selection.files sel →
      sel.files ≠ [] ∧ sel.parent = ["a"] ∧
        ∀ f ∈ sel.files, ∃ n, f = ["a"] ++ [n]) :=
  ⟨by decide,
    (c9_selection_files_invariant ["a"] ["x", "y"] [1] (by decide)).2⟩

/-! ## PDF page navigation (`Pdf` in `src/file_preview/pdf.rs`) -/

/-- `Pdf`: the loaded document's page count (`document.n_pages()`, an
`i32`) and the current page index. `Pdf::new` starts at page 0. -/
structure Pdf where
  nPages : Int
  pageIndex : Int
deriving DecidableEq, Repr

def Pdf.new (n : Int) : Pdf := ⟨n, 0⟩

/-- `Pdf::has_previous_page`: `page_index > 0`. -/
def Pdf.hasPreviousPage (p : Pdf) : Bool := decide (0 < p.pageIndex)

/-- `Pdf::has_next_page`: `page_index < n_pages - 1`. -/
def Pdf.hasNextPage (p : Pdf) : Bool := decide (p.pageIndex < p.nPages - 1)

inductive PdfPageChange where
  | previous
  | next
deriving DecidableEq, Repr

/-- `Pdf::update_page`: move only when the corresponding guard holds,
otherwise leave the index unchanged. -/
def Pdf.updatePage (p : Pdf) : PdfPageChange → Pdf
  | PdfPageChange.previous =>
    if p.hasPreviousPage then { p with pageIndex := p.pageIndex - 1 } else p
  | PdfPageChange.next =>
    if p.hasNextPage then { p with pageIndex := p.pageIndex + 1 } else p

theorem Pdf.updatePage_bounds (p : Pdf) (c : PdfPageChange)
    (h0 : 0 ≤ p.pageIndex) (h1 : p.pageIndex < p.nPages) :
    0 ≤ (p.updatePage c).pageIndex ∧ (p.updatePage c).pageIndex < p.nPages ∧
      (p.updatePage c).nPages = p.nPages := by
  cases c with
  | previous =>
    simp only [Pdf.updatePage, Pdf.hasPreviousPage]
    by_cases h : (0 : Int) < p.pageIndex
    · rw [if_pos (decide_eq_true h)]
      refine ⟨?_, ?_, rfl⟩
      · show 0 ≤ p.pageIndex - 1
        omega
      · show p.pageIndex - 1 < p.nPages
        omega
    · rw [if_neg (by simpa using h)]
      exact ⟨h0, h1, rfl⟩
  | next =>
    simp only [Pdf.updatePage, Pdf.hasNextPage]
    by_cases h : p.pageIndex < p.nPages - 1
    · rw [if_pos (decide_eq_true h)]
      refine ⟨?_, ?_, rfl⟩
      · show 0 ≤ p.pageIndex + 1
        omega
      · show p.pageIndex + 1 < p.nPages
        omega
    · rw [if_neg (by simpa using h)]
      exact ⟨h0, h1, rfl⟩

/-- C10: for a document with at least one page, any finite sequence of
Previous/Next page changes keeps the current page index in bounds — it
never becomes negative and never reaches the page count — and a
Previous at the first page or a Next at the last page leaves the state
unchanged. -/
theorem c10_pdf_page_index_in_bounds (n : Int) (hn : 1 ≤ n)
    (changes : List PdfPageChange) :
    (0 ≤ (changes.foldl Pdf.updatePage (Pdf.new n)).pageIndex ∧
      (changes.foldl Pdf.updatePage (Pdf.new n)).pageIndex < n) ∧
    (∀ p : Pdf, p.pageIndex = 0 →
      p.updatePage PdfPageChange.previous = p) ∧
    (∀ p : Pdf, p.pageIndex = p.nPages - 1 →
      p.updatePage PdfPageChange.next = p) := by
  refine ⟨?_, ?_, ?_⟩
  · suffices h : ∀ p : Pdf, 0 ≤ p.pageIndex → p.pageIndex < p.nPages →
        p.nPages = n →
        0 ≤ (changes.foldl Pdf.updatePage p).pageIndex ∧
          (changes.foldl Pdf.updatePage p).pageIndex < n by
      exact h (Pdf.new n) le_rfl (by simpa [Pdf.new] using hn) rfl
    induction changes with
    | nil =>
      intro p h0 h1 hn'
      exact ⟨h0, hn' ▸ h1⟩
    | cons c cs ih =>
      intro p h0 h1 hn'
      obtain ⟨g0, g1, gn⟩ := Pdf.updatePage_bounds p c h0 h1
      exact ih (p.updatePage c) g0 (gn ▸ g1) (gn.trans hn')
  · intro p hp
    simp [Pdf.updatePage, Pdf.hasPreviousPage, hp]
  · intro p hp
    simp [Pdf.updatePage, Pdf.hasNextPage, hp]

/-- Witness for C10: a two-page document, paging forward twice (the
second Next is refused at the last page) and back once. -/
theorem c10_pdf_page_index_in_bounds_witness :
    (1 : Int) ≤ 2 ∧
    (0 ≤ ([PdfPageChange.next, PdfPageChange.next,
        PdfPageChange.previous].foldl Pdf.updatePage (Pdf.new 2)).pageIndex ∧
      ([PdfPageChange.next, PdfPageChange.next,
        PdfPageChange.previous].foldl Pdf.updatePage (Pdf.new 2)).pageIndex < 2) :=
  ⟨by decide,
    (c10_pdf_page_index_in_bounds 2 (by decide)
      [PdfPageChange.next, PdfPageChange.next, PdfPageChange.previous]).1⟩

end Fm
